import Mathlib

/-!
Verification of the SPSC queues of the fastqueue2 repository.

Two data structures are modelled, by shallow embedding of the C++ sources
into Lean:

* `Dro.SPSCQueue` — the index-tracked queue `dro::SPSCQueue` of
  `src/dro/spsc-queue.hpp`.  Machine integers (`std::size_t`) are modelled
  as `Nat`; cursor arithmetic in the operations never overflows because
  every cursor stays below `capacity_`, which for any successfully
  constructed queue is at most `2^64 - 1` (see `Dro.heapBufferCtor` where
  the wraparound of the constructor itself is modelled explicitly).
* `FQ.FastQueue` — the sentinel-tracked queue `FastQueue` of
  `src/fast_queue_x86_64.h` and `src/fast_queue_arm64.h`.  The two
  architecture variants share the state layout; their operations are
  translated separately (namespaces `FQ.X86` and `FQ.A64`).  The `uint64_t`
  positions are modelled as `Nat` with an explicit `% 2^64` on increment.

All queue operations are given their sequential (single-threaded)
semantics: a spin-wait loop whose condition can never change in the
absence of the other thread is modelled as divergence, i.e. the operation
returns `none`.
-/

namespace Dro

/-- State of `dro::SPSCQueue<T>` (src/dro/spsc-queue.hpp, lines 117-324),
after a successful construction.  `Val` stands for the element type `T`.
The buffer is a total function over `Nat`; the queue only ever addresses
cells `index + padding` with `index < capacity_`.

Field correspondence:
* `capacity_`        — `base_type::capacity_` (user capacity + 1 slack slot)
* `padding`          — `base_type::padding`; `writer_.paddingCache_` is a
                       constructor-initialised copy of the same constant and
                       is represented by this same field
* `buffer_`          — `base_type::buffer_`
* `writeIndex_`      — `writer_.writeIndex_` (atomic)
* `readIndexCache_`  — `writer_.readIndexCache_`
* `readIndex_`       — `reader_.readIndex_` (atomic)
* `writeIndexCache_` — `reader_.writeIndexCache_`
* `capacityCache_`   — `reader_.capacityCache_` -/
structure SPSCQueue (Val : Type) where
  capacity_ : Nat
  padding : Nat
  buffer_ : Nat → Val
  writeIndex_ : Nat
  readIndexCache_ : Nat
  readIndex_ : Nat
  writeIndexCache_ : Nat
  capacityCache_ : Nat

variable {Val : Type}

/-- The queue produced by `SPSCQueue(capacity)` for a heap buffer whose
construction succeeded without the size computation wrapping:
`capacity_ = capacity + 1`, all cursors and caches zero,
`capacityCache_ = capacity_`, and every buffer cell holds the
default-constructed element. -/
def mkQueue (Val : Type) [Inhabited Val] (capacity pad : Nat) : SPSCQueue Val :=
  { capacity_ := capacity + 1
    padding := pad
    buffer_ := fun _ => default
    writeIndex_ := 0
    readIndexCache_ := 0
    readIndex_ := 0
    writeIndexCache_ := 0
    capacityCache_ := capacity + 1 }

/-- `write_value(writeIndex, val)`: assign into
`buffer_[writeIndex + paddingCache_]` (lines 295-323; all four overloads
store the argument into the same cell). -/
def write_value (q : SPSCQueue Val) (x : Val) : Nat → Val :=
  fun i => if i = q.writeIndex_ + q.padding then x else q.buffer_ i

/-- `read_value(readIndex)`: the element at
`buffer_[readIndex + padding]` (lines 283-293). -/
def read_value (q : SPSCQueue Val) : Val :=
  q.buffer_ (q.readIndex_ + q.padding)

/-- `emplace` (lines 157-171), sequential semantics.  The wait loop
`while (nextWriteIndex == readIndexCache_) readIndexCache_ = readIndex_`
refreshes the cache once; if the refreshed cache still equals
`nextWriteIndex` the loop can never exit in a single-threaded run, which
is modelled as `none`. -/
def emplace (q : SPSCQueue Val) (x : Val) : Option (SPSCQueue Val) :=
  if (if q.writeIndex_ = q.capacity_ - 1 then 0 else q.writeIndex_ + 1) ≠ q.readIndexCache_ then
    some { q with buffer_ := write_value q x,
                  writeIndex_ := if q.writeIndex_ = q.capacity_ - 1 then 0 else q.writeIndex_ + 1 }
  else if (if q.writeIndex_ = q.capacity_ - 1 then 0 else q.writeIndex_ + 1) ≠ q.readIndex_ then
    some { q with buffer_ := write_value q x,
                  writeIndex_ := if q.writeIndex_ = q.capacity_ - 1 then 0 else q.writeIndex_ + 1,
                  readIndexCache_ := q.readIndex_ }
  else
    none

/-- `force_emplace` (lines 173-182): same as `emplace` but with no full
check at all — always writes and always advances. -/
def force_emplace (q : SPSCQueue Val) (x : Val) : SPSCQueue Val :=
  { q with buffer_ := write_value q x,
           writeIndex_ := if q.writeIndex_ = q.capacity_ - 1 then 0 else q.writeIndex_ + 1 }

/-- `try_emplace` (lines 184-202): returns `false` (refreshing only the
reader-index cache) when the queue is confirmed full, otherwise writes,
advances and returns `true`. -/
def try_emplace (q : SPSCQueue Val) (x : Val) : Bool × SPSCQueue Val :=
  if (if q.writeIndex_ = q.capacity_ - 1 then 0 else q.writeIndex_ + 1) = q.readIndexCache_ then
    if (if q.writeIndex_ = q.capacity_ - 1 then 0 else q.writeIndex_ + 1) = q.readIndex_ then
      (false, { q with readIndexCache_ := q.readIndex_ })
    else
      (true, { q with buffer_ := write_value q x,
                      writeIndex_ := if q.writeIndex_ = q.capacity_ - 1 then 0 else q.writeIndex_ + 1,
                      readIndexCache_ := q.readIndex_ })
  else
    (true, { q with buffer_ := write_value q x,
                    writeIndex_ := if q.writeIndex_ = q.capacity_ - 1 then 0 else q.writeIndex_ + 1 })

/-- `pop` (lines 231-242), sequential semantics; `none` models the wait
loop spinning forever on an empty queue. -/
def pop (q : SPSCQueue Val) : Option (Val × SPSCQueue Val) :=
  if q.readIndex_ ≠ q.writeIndexCache_ then
    some (read_value q,
      { q with readIndex_ := if q.readIndex_ = q.capacityCache_ - 1 then 0 else q.readIndex_ + 1 })
  else if q.readIndex_ ≠ q.writeIndex_ then
    some (read_value q,
      { q with readIndex_ := if q.readIndex_ = q.capacityCache_ - 1 then 0 else q.readIndex_ + 1,
               writeIndexCache_ := q.writeIndex_ })
  else
    none

/-- `try_pop` (lines 244-259): `none` in the first component models
returning `false` (with only the writer-index cache refreshed). -/
def try_pop (q : SPSCQueue Val) : Option Val × SPSCQueue Val :=
  if q.readIndex_ = q.writeIndexCache_ then
    if q.readIndex_ = q.writeIndex_ then
      (none, { q with writeIndexCache_ := q.writeIndex_ })
    else
      (some (read_value q),
        { q with readIndex_ := if q.readIndex_ = q.capacityCache_ - 1 then 0 else q.readIndex_ + 1,
                 writeIndexCache_ := q.writeIndex_ })
  else
    (some (read_value q),
      { q with readIndex_ := if q.readIndex_ = q.capacityCache_ - 1 then 0 else q.readIndex_ + 1 })

/-- `size()` (lines 261-269). -/
def size (q : SPSCQueue Val) : Nat :=
  if q.readIndex_ ≤ q.writeIndex_ then q.writeIndex_ - q.readIndex_
  else (q.capacity_ - q.readIndex_) + q.writeIndex_

/-- `empty()` (lines 271-274). -/
def emptyQ (q : SPSCQueue Val) : Bool :=
  q.writeIndex_ = q.readIndex_

/-- `capacity()` (lines 276-278). -/
def capacity (q : SPSCQueue Val) : Nat :=
  q.capacity_ - 1

/-- One whole-operation step of an interleaved single-producer /
single-consumer schedule: a blocking `push` (via `emplace`) or a blocking
`pop`. -/
inductive QOp (Val : Type) where
  | push (x : Val)
  | pop

/-- Run a schedule of whole operations sequentially, collecting the popped
values in order.  `none` means some operation in the schedule can never
complete (its spin loop diverges). -/
def runOps : List (QOp Val) → SPSCQueue Val → Option (List Val × SPSCQueue Val)
  | [], q => some ([], q)
  | QOp.push x :: ops, q => (emplace q x).bind fun q' => runOps ops q'
  | QOp.pop :: ops, q =>
      (pop q).bind fun vq => (runOps ops vq.2).map fun r => (vq.1 :: r.1, r.2)

/-- The values pushed by a schedule, in order. -/
def pushedOf : List (QOp Val) → List Val
  | [] => []
  | QOp.push x :: ops => x :: pushedOf ops
  | QOp.pop :: ops => pushedOf ops

/-- The number of pops in a schedule. -/
def numPops : List (QOp Val) → Nat
  | [] => 0
  | QOp.push _ :: ops => numPops ops
  | QOp.pop :: ops => numPops ops + 1

/-- Run a sequence of consecutive `try_emplace` calls, collecting each
call's boolean result. -/
def tryPushRun : List Val → SPSCQueue Val → List Bool × SPSCQueue Val
  | [], q => ([], q)
  | x :: xs, q =>
      let r := try_emplace q x
      let rest := tryPushRun xs r.2
      (r.1 :: rest.1, rest.2)

/-- `(a - b) mod cap` for cursors `a b < cap`, written without `%` so that
`omega` can reason about it directly. -/
def wrapDist (cap a b : Nat) : Nat :=
  if b ≤ a then a - b else cap - b + a

/-- `(a + i) mod cap` for `a < cap` and `a + i < 2 * cap`, written without
`%`. -/
def wrapAdd (cap a i : Nat) : Nat :=
  if a + i < cap then a + i else a + i - cap

/-- Queue occupancy: number of elements written but not yet read. -/
def occ (q : SPSCQueue Val) : Nat :=
  wrapDist q.capacity_ q.writeIndex_ q.readIndex_

/-- States reachable by single-threaded use of a successfully constructed
queue: cursor bounds, the constructor-initialised capacity cache, and the
two shadow-cache lag conditions (a shadow cache never makes its owner see
more room, resp. more data, than the authoritative cursor allows). -/
def Inv (q : SPSCQueue Val) : Prop :=
  2 ≤ q.capacity_ ∧
  q.writeIndex_ < q.capacity_ ∧
  q.readIndex_ < q.capacity_ ∧
  q.readIndexCache_ < q.capacity_ ∧
  q.writeIndexCache_ < q.capacity_ ∧
  q.capacityCache_ = q.capacity_ ∧
  occ q ≤ wrapDist q.capacity_ q.writeIndex_ q.readIndexCache_ ∧
  wrapDist q.capacity_ q.writeIndexCache_ q.readIndex_ ≤ occ q

/-- `Inv` together with the abstraction relation: `l` is the list of live
elements, oldest first, stored in the `l.length` cells starting at the
read cursor. -/
def InvQ (q : SPSCQueue Val) (l : List Val) : Prop :=
  Inv q ∧ occ q = l.length ∧
  ∀ i (h : i < l.length),
    q.buffer_ (wrapAdd q.capacity_ q.readIndex_ i + q.padding) = l[i]

/-- Largest value of `std::size_t`. -/
def MAX_SIZE_T : Nat := 2 ^ 64 - 1

/-- `details::cacheLineSize` (64, the fallback value; equal to
`std::hardware_destructive_interference_size` on the targets in scope). -/
def cacheLineSize : Nat := 64

/-- `HeapBuffer::padding = ((cacheLineSize - 1) / sizeof(T)) + 1`
(line 62), as a function of `sizeof(T)`. -/
def paddingOf (sizeofT : Nat) : Nat :=
  (cacheLineSize - 1) / sizeofT + 1

/-- Outcome of `HeapBuffer::HeapBuffer` (lines 66-80). -/
inductive HeapCtorResult where
  | logicError
  | overflowError
  | ok (capacity_ : Nat)
  deriving DecidableEq

/-- `HeapBuffer::HeapBuffer(capacity)` (lines 66-80) with `std::size_t`
arithmetic made explicit: the member initialiser computes
`capacity_ = capacity + 1` in `std::size_t`, which wraps modulo `2^64`;
then the body throws `std::logic_error` if `capacity < 1`, throws
`std::overflow_error` if `capacity_ > MAX_SIZE_T - 2 * padding`, and
otherwise resizes the buffer and succeeds. -/
def heapBufferCtor (sizeofT capacity : Nat) : HeapCtorResult :=
  let capacity_ := (capacity + 1) % 2 ^ 64
  if capacity < 1 then HeapCtorResult.logicError
  else if capacity_ > MAX_SIZE_T - 2 * paddingOf sizeofT then HeapCtorResult.overflowError
  else HeapCtorResult.ok capacity_

end Dro

namespace FQ

/-- State of `FastQueue<T, RING_BUFFER_SIZE, L1_CACHE_LNE>`.  Both
architecture headers declare the same fields; only the initial values of
the read/write positions differ (0 in `src/fast_queue_x86_64.h`, 1 in
`src/fast_queue_arm64.h`).

`T` is a pointer-sized nullable type; `Val` stands for its non-null
values, so a slot (`mObj`) is an `Option Val` with `none` for `nullptr`.
The `uint64_t` positions are `Nat` kept below `2^64` by an explicit
`% 2^64` on increment. -/
structure FastQueue (Val : Type) where
  mReadPosition : Nat
  mWritePosition : Nat
  mExitThread : Nat
  mExitThreadSemaphore : Bool
  mRingBuffer : Nat → Option Val

variable {Val : Type}

/-- `2^64`, the modulus of `uint64_t` position arithmetic. -/
def UINT64_MOD : Nat := 2 ^ 64

/-- `stopQueue()`: freeze the current write position as the exit marker
and raise the shutdown flag.  Identical in both headers
(x86_64 lines 35-39, arm64 lines 38-42). -/
def stopQueue (q : FastQueue Val) : FastQueue Val :=
  { q with mExitThread := q.mWritePosition, mExitThreadSemaphore := true }

namespace X86

/-- Initial state of the x86_64 variant: both positions 0, exit marker 0,
shutdown flag down, all slots null. -/
def start (Val : Type) : FastQueue Val :=
  { mReadPosition := 0, mWritePosition := 0, mExitThread := 0,
    mExitThreadSemaphore := false, mRingBuffer := fun _ => none }

/-- `push` (src/fast_queue_x86_64.h lines 18-22), sequential semantics.
The wait loop spins while the target slot is non-null, returning early if
the shutdown flag is up; with no other thread the slot never changes, so
a non-null slot with the flag down means divergence (`none`).  A null slot
is written and the write position post-incremented (mod `2^64`)
unconditionally — the flag is not consulted on that path. -/
def push (RBS : Nat) (q : FastQueue Val) (x : Val) : Option (FastQueue Val) :=
  match q.mRingBuffer (q.mWritePosition &&& RBS) with
  | some _ => if q.mExitThreadSemaphore then some q else none
  | none => some { q with
      mRingBuffer := fun i =>
        if i = q.mWritePosition &&& RBS then some x else q.mRingBuffer i,
      mWritePosition := (q.mWritePosition + 1) % UINT64_MOD }

/-- `pop` (src/fast_queue_x86_64.h lines 24-33), sequential semantics.
A non-null slot is taken: its value is returned, the slot is cleared and
the read position post-incremented.  On a null slot the loop exits with a
null output only when `mExitThread == mReadPosition && mExitThreadSemaphore`;
otherwise it spins forever (`none`). -/
def pop (RBS : Nat) (q : FastQueue Val) : Option (Option Val × FastQueue Val) :=
  match q.mRingBuffer (q.mReadPosition &&& RBS) with
  | some v => some (some v, { q with
      mRingBuffer := fun i =>
        if i = q.mReadPosition &&& RBS then none else q.mRingBuffer i,
      mReadPosition := (q.mReadPosition + 1) % UINT64_MOD })
  | none =>
      if q.mExitThread = q.mReadPosition ∧ q.mExitThreadSemaphore then
        some (none, q)
      else none

end X86

namespace A64

/-- Initial state of the arm64 variant: both positions 1 (so that the
marker value 0 cannot spuriously equal the read position), exit marker 0,
shutdown flag down, all slots null. -/
def start (Val : Type) : FastQueue Val :=
  { mReadPosition := 1, mWritePosition := 1, mExitThread := 0,
    mExitThreadSemaphore := false, mRingBuffer := fun _ => none }

/-- `push` (src/fast_queue_arm64.h lines 19-23), sequential semantics;
textually the same algorithm as the x86_64 `push`, including the shutdown
check in the wait loop. -/
def push (RBS : Nat) (q : FastQueue Val) (x : Val) : Option (FastQueue Val) :=
  match q.mRingBuffer (q.mWritePosition &&& RBS) with
  | some _ => if q.mExitThreadSemaphore then some q else none
  | none => some { q with
      mRingBuffer := fun i =>
        if i = q.mWritePosition &&& RBS then some x else q.mRingBuffer i,
      mWritePosition := (q.mWritePosition + 1) % UINT64_MOD }

/-- `pop` (src/fast_queue_arm64.h lines 25-36), sequential semantics.
Unlike the x86_64 variant, the end-of-stream exit fires on
`mExitThread == mReadPosition` alone — the shutdown flag is not consulted
inside `pop`. -/
def pop (RBS : Nat) (q : FastQueue Val) : Option (Option Val × FastQueue Val) :=
  match q.mRingBuffer (q.mReadPosition &&& RBS) with
  | some v => some (some v, { q with
      mRingBuffer := fun i =>
        if i = q.mReadPosition &&& RBS then none else q.mRingBuffer i,
      mReadPosition := (q.mReadPosition + 1) % UINT64_MOD })
  | none =>
      if q.mExitThread = q.mReadPosition then some (none, q) else none

end A64

/-- Run a sequence of pushes (with a given push implementation);
`none` if some push can never complete. -/
def pushSeq (pushF : FastQueue Val → Val → Option (FastQueue Val)) :
    List Val → FastQueue Val → Option (FastQueue Val)
  | [], q => some q
  | x :: xs, q => (pushF q x).bind (pushSeq pushF xs)

/-- Run `k` consecutive pops (with a given pop implementation), collecting
the outputs (`none` entries are null-sentinel returns); the outer `none`
means some pop can never complete. -/
def popSeq (popF : FastQueue Val → Option (Option Val × FastQueue Val)) :
    Nat → FastQueue Val → Option (List (Option Val) × FastQueue Val)
  | 0, q => some ([], q)
  | k + 1, q =>
      (popF q).bind fun vq => (popSeq popF k vq.2).map fun r => (vq.1 :: r.1, r.2)

/-- One whole-operation step of an interleaved schedule on a sentinel
queue. -/
inductive FOp (Val : Type) where
  | push (x : Val)
  | pop

/-- Run an interleaved schedule of whole push/pop operations with the
given implementations, collecting the pop outputs in order. -/
def runFOps (pushF : FastQueue Val → Val → Option (FastQueue Val))
    (popF : FastQueue Val → Option (Option Val × FastQueue Val)) :
    List (FOp Val) → FastQueue Val → Option (List (Option Val) × FastQueue Val)
  | [], q => some ([], q)
  | FOp.push x :: ops, q => (pushF q x).bind fun q' => runFOps pushF popF ops q'
  | FOp.pop :: ops, q =>
      (popF q).bind fun vq =>
        (runFOps pushF popF ops vq.2).map fun r => (vq.1 :: r.1, r.2)

/-- The values pushed by a schedule, in order. -/
def fPushedOf : List (FOp Val) → List Val
  | [] => []
  | FOp.push x :: ops => x :: fPushedOf ops
  | FOp.pop :: ops => fPushedOf ops

/-- The number of pops in a schedule. -/
def fNumPops : List (FOp Val) → Nat
  | [] => 0
  | FOp.push _ :: ops => fNumPops ops
  | FOp.pop :: ops => fNumPops ops + 1

/-- The number of pushes in a schedule. -/
def fNumPushes : List (FOp Val) → Nat
  | [] => 0
  | FOp.push _ :: ops => fNumPushes ops + 1
  | FOp.pop :: ops => fNumPushes ops

/-- Abstraction relation for a running sentinel queue that has seen no
`stopQueue`: positions are exact (`mWritePosition = mReadPosition + l.length`,
no `uint64_t` wrap yet), the read position is at or above its initial
value `b`, the exit fields still hold their initial values, the `l.length`
slots from the read position hold `l` in order, and every other slot is
null.  `n` is the exponent with `RING_BUFFER_SIZE + 1 = 2^n`. -/
def InvF (n b : Nat) (q : FastQueue Val) (l : List Val) : Prop :=
  q.mWritePosition = q.mReadPosition + l.length ∧
  b ≤ q.mReadPosition ∧
  l.length ≤ 2 ^ n ∧
  q.mExitThread = 0 ∧
  q.mExitThreadSemaphore = false ∧
  (∀ i (h : i < l.length),
    q.mRingBuffer ((q.mReadPosition + i) % 2 ^ n) = some l[i]) ∧
  (∀ m, (∀ i, i < l.length → m ≠ (q.mReadPosition + i) % 2 ^ n) →
    q.mRingBuffer m = none)

end FQ
namespace Dro

variable {Val : Type}

theorem emplace_not_full (q : SPSCQueue Val) (l : List Val) (x : Val)
    (h : InvQ q l) (hlen : l.length < capacity q) :
    ∃ q', emplace q x = some q' ∧ InvQ q' (l ++ [x]) := by
  obtain ⟨⟨hcap, hw, hr, hrc, hwc, hcc, hlag1, hlag2⟩, hocc, hbuf⟩ := h
  unfold capacity at hlen
  have hwr : wrapAdd q.capacity_ q.readIndex_ l.length = q.writeIndex_ := by
    rw [← hocc]; unfold occ wrapDist wrapAdd; split_ifs <;> omega
  have hbufx : ∀ i (hi : i < (l ++ [x]).length),
      write_value q x (wrapAdd q.capacity_ q.readIndex_ i + q.padding) = (l ++ [x])[i] := by
    intro i hi
    have hi' : i < l.length + 1 := by simpa using hi
    rcases Nat.lt_or_ge i l.length with hilt | hige
    · have hne : wrapAdd q.capacity_ q.readIndex_ i ≠ q.writeIndex_ := by
        rw [← hwr]
        unfold wrapAdd; split_ifs <;> omega
      unfold write_value
      rw [if_neg (by omega), List.getElem_append_left hilt]
      exact hbuf i hilt
    · have hieq : i = l.length := by omega
      subst hieq
      unfold write_value
      rw [if_pos (by rw [hwr]), List.getElem_append_right (by omega)]
      simp
  obtain ⟨cap, pad, buf, w, rc, r, wc, cc⟩ := q
  simp only at hcap hw hr hrc hwc hcc hlag1 hlag2 hocc hlen hwr hbufx
  unfold occ wrapDist at hocc hlag1 hlag2
  unfold wrapAdd at hwr
  unfold emplace
  simp only
  split_ifs at hocc hlag1 hlag2 hwr ⊢
  all_goals first
    | (exfalso; omega)
    | (refine ⟨_, rfl, ?_⟩
       refine ⟨⟨hcap, ?_, hr, ?_, hwc, hcc, ?_, ?_⟩, ?_, fun i hi => hbufx i hi⟩ <;>
         (simp only [occ, wrapDist, List.length_append, List.length_singleton]
          (try split_ifs) <;> omega))

end Dro

namespace Dro

variable {Val : Type}

theorem emplace_full (q : SPSCQueue Val) (l : List Val) (x : Val)
    (h : InvQ q l) (hlen : l.length = capacity q) :
    emplace q x = none := by
  obtain ⟨⟨hcap, hw, hr, hrc, hwc, hcc, hlag1, hlag2⟩, hocc, hbuf⟩ := h
  unfold capacity at hlen
  obtain ⟨cap, pad, buf, w, rc, r, wc, cc⟩ := q
  dsimp only [occ, wrapDist] at hcap hw hr hrc hwc hcc hlag1 hlag2 hocc hlen
  unfold emplace
  dsimp only
  split_ifs at hocc hlag1 hlag2 ⊢ <;> first | rfl | (exfalso; omega)

theorem pop_cons (q : SPSCQueue Val) (x : Val) (l : List Val)
    (h : InvQ q (x :: l)) :
    ∃ q', pop q = some (x, q') ∧ InvQ q' l := by
  obtain ⟨⟨hcap, hw, hr, hrc, hwc, hcc, hlag1, hlag2⟩, hocc, hbuf⟩ := h
  have hocc' : occ q = l.length + 1 := by simpa using hocc
  have hval : read_value q = x := by
    have h0 := hbuf 0 (by simp)
    unfold wrapAdd at h0
    rw [if_pos (by omega)] at h0
    simpa [read_value] using h0
  have hocclt : occ q < q.capacity_ := by unfold occ wrapDist; split_ifs <;> omega
  have hshift : ∀ nr, (nr = 0 ∧ q.readIndex_ = q.capacity_ - 1 ∨
      nr = q.readIndex_ + 1 ∧ q.readIndex_ ≠ q.capacity_ - 1) →
      ∀ i (hi : i < l.length),
      q.buffer_ (wrapAdd q.capacity_ nr i + q.padding) = l[i] := by
    intro nr hnr i hi
    have hib : i + 2 ≤ occ q := by omega
    have heq : wrapAdd q.capacity_ nr i = wrapAdd q.capacity_ q.readIndex_ (i + 1) := by
      unfold occ wrapDist at hib hocclt
      unfold wrapAdd
      rcases hnr with ⟨h1, h2⟩ | ⟨h1, h2⟩ <;> subst h1 <;> split_ifs <;> omega
    rw [heq]
    have := hbuf (i + 1) (by simpa using Nat.succ_lt_succ hi)
    simpa using this
  obtain ⟨cap, pad, buf, w, rc, r, wc, cc⟩ := q
  dsimp only [occ, wrapDist, wrapAdd] at hcap hw hr hrc hwc hcc hlag1 hlag2 hocc' hval hshift hocclt
  subst hcc
  unfold pop
  dsimp only
  rw [hval]
  split_ifs at hocc' hlag1 hlag2 ⊢
  all_goals first
    | (exfalso; omega)
    | (refine ⟨_, rfl, ?_⟩
       refine ⟨⟨?_, ?_, ?_, ?_, ?_, ?_, ?_, ?_⟩, ?_,
         fun i hi => hshift _ (by dsimp only; omega) i hi⟩ <;>
         (dsimp only [occ, wrapDist] <;> (try split_ifs) <;> omega))

theorem pop_nil (q : SPSCQueue Val) (h : InvQ q []) : pop q = none := by
  obtain ⟨⟨hcap, hw, hr, hrc, hwc, hcc, hlag1, hlag2⟩, hocc, hbuf⟩ := h
  obtain ⟨cap, pad, buf, w, rc, r, wc, cc⟩ := q
  dsimp only [occ, wrapDist, List.length_nil] at hcap hw hr hrc hwc hcc hlag1 hlag2 hocc
  unfold pop
  dsimp only
  split_ifs at hocc hlag1 hlag2 ⊢ <;> first | rfl | (exfalso; omega)

end Dro

namespace Dro

variable {Val : Type}

theorem InvQ_length_le (q : SPSCQueue Val) (l : List Val) (h : InvQ q l) :
    l.length ≤ capacity q := by
  obtain ⟨⟨hcap, hw, hr, _, _, _, _, _⟩, hocc, _⟩ := h
  unfold capacity
  rw [← hocc]
  unfold occ wrapDist
  split_ifs <;> omega

theorem runOps_spec (ops : List (QOp Val)) :
    ∀ (q : SPSCQueue Val) (l outs : List Val) (qf : SPSCQueue Val),
    InvQ q l → runOps ops q = some (outs, qf) →
    ∃ lf, InvQ qf lf ∧ l ++ pushedOf ops = outs ++ lf ∧ outs.length = numPops ops := by
  induction ops with
  | nil =>
    intro q l outs qf h hrun
    simp only [runOps, Option.some.injEq, Prod.mk.injEq] at hrun
    obtain ⟨h1, h2⟩ := hrun
    subst h1; subst h2
    exact ⟨l, h, by simp [pushedOf], by simp [numPops]⟩
  | cons op ops ih =>
    intro q l outs qf h hrun
    cases op with
    | push x =>
      rcases Nat.lt_or_ge l.length (capacity q) with hlt | hge
      · obtain ⟨q', hemp, h'⟩ := emplace_not_full q l x h hlt
        simp only [runOps, hemp, Option.some_bind] at hrun
        obtain ⟨lf, hf, heq, hlen⟩ := ih q' (l ++ [x]) outs qf h' hrun
        refine ⟨lf, hf, ?_, by simpa [numPops] using hlen⟩
        simpa [pushedOf] using heq
      · have heq : l.length = capacity q := le_antisymm (InvQ_length_le q l h) hge
        simp only [runOps, emplace_full q l x h heq, Option.none_bind] at hrun
        exact absurd hrun (by simp)
    | pop =>
      cases l with
      | nil =>
        simp only [runOps, pop_nil q h, Option.none_bind] at hrun
        exact absurd hrun (by simp)
      | cons y l' =>
        obtain ⟨q', hpop, h'⟩ := pop_cons q y l' h
        simp only [runOps, hpop, Option.some_bind] at hrun
        rcases Option.map_eq_some'.mp hrun with ⟨⟨outs', qf'⟩, hrun', hpair⟩
        injection hpair with hp1 hp2
        subst hp2
        obtain ⟨lf, hf, heq, hlen⟩ := ih q' l' outs' qf' h' hrun'
        refine ⟨lf, hf, ?_, ?_⟩
        · subst hp1
          simpa [pushedOf] using congrArg (List.cons y) heq
        · subst hp1
          simp [numPops, hlen]

theorem mkQueue_InvQ (Val : Type) [Inhabited Val] (c pad : Nat) (hc : 1 ≤ c) :
    InvQ (mkQueue Val c pad) [] := by
  refine ⟨⟨?_, ?_, ?_, ?_, ?_, ?_, ?_, ?_⟩, ?_, ?_⟩ <;>
    first
      | (simp [mkQueue, occ, wrapDist]; done)
      | (simp [mkQueue, occ, wrapDist]; omega)

end Dro

namespace Dro

variable {Val : Type}

theorem tryPushRun_aux (c : Nat) (hc : 1 ≤ c) :
    ∀ (vs : List Val) (q : SPSCQueue Val) (j : Nat),
    q.capacity_ = c + 1 → q.writeIndex_ = j → q.readIndex_ = 0 → q.readIndexCache_ = 0 →
    j ≤ c → j + vs.length = c + 1 →
    (tryPushRun vs q).1 = List.replicate (c - j) true ++ [false] := by
  intro vs
  induction vs with
  | nil =>
    intro q j _ _ _ _ hj hlen
    simp only [List.length_nil] at hlen
    omega
  | cons x xs ih =>
    intro q j hqc hqw hqr hqrc hj hlen
    obtain ⟨cap, pad, buf, w, rc, r, wc, cc⟩ := q
    dsimp only at hqc hqw hqr hqrc
    simp only [List.length_cons] at hlen
    rcases Nat.lt_or_ge j c with hjc | hjc
    · -- this push succeeds
      unfold tryPushRun try_emplace
      dsimp only
      split_ifs
      all_goals first
        | (exfalso; omega)
        | (dsimp only
           rw [ih _ (j + 1) (by dsimp only; omega) (by dsimp only; omega)
              (by dsimp only; omega) (by dsimp only; omega) (by omega) (by omega)]
           have hrepl : c - j = (c - (j + 1)) + 1 := by omega
           rw [hrepl, List.replicate_succ]
           simp)
    · -- j = c: this push fails
      have hxs : xs = [] := by
        exact List.eq_nil_of_length_eq_zero (by omega)
      subst hxs
      unfold tryPushRun try_emplace
      dsimp only
      split_ifs
      all_goals first
        | (exfalso; omega)
        | (dsimp only
           unfold tryPushRun
           have hcj : c - j = 0 := by omega
           rw [hcj]
           simp)

end Dro

namespace FQ

variable {Val : Type}

theorem mask_eq_mod (n RBS : Nat) (hR : RBS = 2 ^ n - 1) (p : Nat) :
    p &&& RBS = p % 2 ^ n := by
  rw [hR]
  exact Nat.and_pow_two_sub_one_eq_mod p n

theorem mod_shift_ne (m w d : Nat) (hd1 : 0 < d) (hd2 : d < m) :
    (w + d) % m ≠ w % m := by
  intro h
  have hdvd : m ∣ w + d - w := (Nat.modEq_iff_dvd' (Nat.le_add_right w d)).mp h.symm
  rw [Nat.add_sub_cancel_left] at hdvd
  exact absurd (Nat.le_of_dvd hd1 hdvd) (by omega)

theorem push_eq_variants (RBS : Nat) (q : FastQueue Val) (x : Val) :
    A64.push RBS q x = X86.push RBS q x := rfl

theorem pushSeq_fill (n RBS : Nat) (hR : RBS = 2 ^ n - 1) :
    ∀ (vs : List Val) (q : FastQueue Val),
    vs.length ≤ 2 ^ n →
    q.mWritePosition + vs.length < UINT64_MOD →
    (∀ i, i < vs.length → q.mRingBuffer ((q.mWritePosition + i) % 2 ^ n) = none) →
    ∃ q', pushSeq (X86.push RBS) vs q = some q' ∧
      q'.mReadPosition = q.mReadPosition ∧
      q'.mWritePosition = q.mWritePosition + vs.length ∧
      q'.mExitThread = q.mExitThread ∧
      q'.mExitThreadSemaphore = q.mExitThreadSemaphore ∧
      (∀ i (h : i < vs.length), q'.mRingBuffer ((q.mWritePosition + i) % 2 ^ n) = some vs[i]) ∧
      (∀ m, (∀ i, i < vs.length → m ≠ (q.mWritePosition + i) % 2 ^ n) →
        q'.mRingBuffer m = q.mRingBuffer m) := by
  intro vs
  induction vs with
  | nil =>
    intro q hlen hpos hempty
    refine ⟨q, rfl, rfl, by simp, rfl, rfl, ?_, fun m _ => rfl⟩
    intro i h
    exact absurd h (by simp)
  | cons x xs ih =>
    intro q hlen hpos hempty
    simp only [List.length_cons] at hlen hpos
    have hn : 0 < 2 ^ n := Nat.pos_pow_of_pos n (by omega)
    have hslot : q.mRingBuffer (q.mWritePosition &&& RBS) = none := by
      rw [mask_eq_mod n RBS hR]
      simpa using hempty 0 (by simp)
    have hwp1 : (q.mWritePosition + 1) % UINT64_MOD = q.mWritePosition + 1 :=
      Nat.mod_eq_of_lt (by unfold UINT64_MOD at hpos ⊢; omega)
    set q1 : FastQueue Val := { q with
        mRingBuffer := fun i =>
          if i = q.mWritePosition &&& RBS then some x else q.mRingBuffer i,
        mWritePosition := (q.mWritePosition + 1) % UINT64_MOD } with hq1def
    have hstep : X86.push RBS q x = some q1 := by
      unfold X86.push
      rw [hslot]
    have hq1rp : q1.mReadPosition = q.mReadPosition := rfl
    have hq1wp : q1.mWritePosition = q.mWritePosition + 1 := hwp1
    have hq1et : q1.mExitThread = q.mExitThread := rfl
    have hq1sem : q1.mExitThreadSemaphore = q.mExitThreadSemaphore := rfl
    have hq1ring : ∀ m, q1.mRingBuffer m =
        if m = q.mWritePosition % 2 ^ n then some x else q.mRingBuffer m := by
      intro m
      show (if m = q.mWritePosition &&& RBS then some x else q.mRingBuffer m) = _
      rw [mask_eq_mod n RBS hR]
    have harg2 : q1.mWritePosition + xs.length < UINT64_MOD := by
      rw [hq1wp]; omega
    have harg3 : ∀ i, i < xs.length →
        q1.mRingBuffer ((q1.mWritePosition + i) % 2 ^ n) = none := by
      intro i hi
      rw [hq1wp, hq1ring]
      have hrearr : q.mWritePosition + 1 + i = q.mWritePosition + (1 + i) := by omega
      rw [if_neg (by
        rw [hrearr]
        exact mod_shift_ne (2 ^ n) q.mWritePosition (1 + i) (by omega) (by omega))]
      have := hempty (i + 1) (by simp only [List.length_cons]; omega)
      rw [hrearr]
      have hswap : 1 + i = i + 1 := by omega
      rw [hswap]
      exact this
    obtain ⟨q', hrun, hrp, hwp, het, hsem, hfill, hkeep⟩ :=
      ih q1 (by omega) harg2 harg3
    refine ⟨q', ?_, ?_, ?_, ?_, ?_, ?_, ?_⟩
    · simp only [pushSeq, hstep, Option.some_bind]
      exact hrun
    · rw [hrp, hq1rp]
    · rw [hwp, hq1wp]
      simp only [List.length_cons]
      omega
    · rw [het, hq1et]
    · rw [hsem, hq1sem]
    · intro i h
      rcases Nat.eq_zero_or_pos i with hi0 | hipos
      · subst hi0
        have hm : ∀ j, j < xs.length →
            (q.mWritePosition + 0) % 2 ^ n ≠ (q1.mWritePosition + j) % 2 ^ n := by
          intro j hj
          rw [hq1wp]
          simp only [Nat.add_zero]
          have hrearr : q.mWritePosition + 1 + j = q.mWritePosition + (1 + j) := by omega
          rw [hrearr]
          exact (mod_shift_ne (2 ^ n) q.mWritePosition (1 + j) (by omega) (by omega)).symm
        rw [hkeep _ hm, hq1ring]
        simp
      · obtain ⟨j, hj⟩ : ∃ j, i = j + 1 := ⟨i - 1, by omega⟩
        subst hj
        have hfj := hfill j (by simp only [List.length_cons] at h; omega)
        have hidx : q.mWritePosition + (j + 1) = q1.mWritePosition + j := by
          rw [hq1wp]; omega
        rw [hidx]
        simpa using hfj
    · intro m hm
      have hm1 : ∀ j, j < xs.length → m ≠ (q1.mWritePosition + j) % 2 ^ n := by
        intro j hj
        rw [hq1wp]
        have hrearr : q.mWritePosition + 1 + j = q.mWritePosition + (j + 1) := by omega
        rw [hrearr]
        exact hm (j + 1) (by simp only [List.length_cons]; omega)
      rw [hkeep m hm1, hq1ring]
      rw [if_neg (by
        have := hm 0 (by simp only [List.length_cons]; omega)
        simpa using this)]

end FQ

namespace FQ

variable {Val : Type}

theorem pop_value_x86 (RBS : Nat) (q : FastQueue Val) (v : Val)
    (h : q.mRingBuffer (q.mReadPosition &&& RBS) = some v) :
    X86.pop RBS q = some (some v, { q with
      mRingBuffer := fun i =>
        if i = q.mReadPosition &&& RBS then none else q.mRingBuffer i,
      mReadPosition := (q.mReadPosition + 1) % UINT64_MOD }) := by
  unfold X86.pop
  rw [h]

theorem pop_value_a64 (RBS : Nat) (q : FastQueue Val) (v : Val)
    (h : q.mRingBuffer (q.mReadPosition &&& RBS) = some v) :
    A64.pop RBS q = some (some v, { q with
      mRingBuffer := fun i =>
        if i = q.mReadPosition &&& RBS then none else q.mRingBuffer i,
      mReadPosition := (q.mReadPosition + 1) % UINT64_MOD }) := by
  unfold A64.pop
  rw [h]

theorem pop_sentinel_x86 (RBS : Nat) (q : FastQueue Val)
    (hslot : q.mRingBuffer (q.mReadPosition &&& RBS) = none)
    (hmark : q.mExitThread = q.mReadPosition)
    (hsem : q.mExitThreadSemaphore = true) :
    X86.pop RBS q = some (none, q) := by
  unfold X86.pop
  rw [hslot]
  rw [if_pos ⟨hmark, hsem⟩]

theorem pop_sentinel_a64 (RBS : Nat) (q : FastQueue Val)
    (hslot : q.mRingBuffer (q.mReadPosition &&& RBS) = none)
    (hmark : q.mExitThread = q.mReadPosition) :
    A64.pop RBS q = some (none, q) := by
  unfold A64.pop
  rw [hslot]
  rw [if_pos hmark]

theorem pop_spin_x86 (RBS : Nat) (q : FastQueue Val)
    (hslot : q.mRingBuffer (q.mReadPosition &&& RBS) = none)
    (hsem : q.mExitThreadSemaphore = false) :
    X86.pop RBS q = none := by
  unfold X86.pop
  rw [hslot]
  rw [if_neg (by simp [hsem])]

theorem pop_spin_a64 (RBS : Nat) (q : FastQueue Val)
    (hslot : q.mRingBuffer (q.mReadPosition &&& RBS) = none)
    (hmark : q.mExitThread ≠ q.mReadPosition) :
    A64.pop RBS q = none := by
  unfold A64.pop
  rw [hslot]
  rw [if_neg hmark]

theorem popSeq_add (popF : FastQueue Val → Option (Option Val × FastQueue Val))
    (a b : Nat) : ∀ (q : FastQueue Val),
    popSeq popF (a + b) q = (popSeq popF a q).bind fun r =>
      (popSeq popF b r.2).map fun r2 => (r.1 ++ r2.1, r2.2) := by
  induction a with
  | zero =>
    intro q
    simp [popSeq]
  | succ a ih =>
    intro q
    have hsw : a + 1 + b = (a + b) + 1 := by omega
    rw [hsw]
    show (popF q).bind _ = _
    cases hq : popF q with
    | none => simp [popSeq, hq]
    | some vq =>
      simp only [popSeq, hq, Option.some_bind, ih vq.2]
      cases hpa : popSeq popF a vq.2 with
      | none => simp
      | some r =>
        cases hpb : popSeq popF b r.2 with
        | none => simp [hpb]
        | some r2 => simp [hpb]

theorem popSeq_vals (n RBS : Nat) (hR : RBS = 2 ^ n - 1)
    (popF : FastQueue Val → Option (Option Val × FastQueue Val))
    (hvalF : ∀ (q : FastQueue Val) (v : Val),
      q.mRingBuffer (q.mReadPosition &&& RBS) = some v →
      popF q = some (some v, { q with
        mRingBuffer := fun i =>
          if i = q.mReadPosition &&& RBS then none else q.mRingBuffer i,
        mReadPosition := (q.mReadPosition + 1) % UINT64_MOD })) :
    ∀ (vs : List Val) (q : FastQueue Val),
    vs.length ≤ 2 ^ n →
    q.mReadPosition + vs.length < UINT64_MOD →
    (∀ i (h : i < vs.length), q.mRingBuffer ((q.mReadPosition + i) % 2 ^ n) = some vs[i]) →
    ∃ q', popSeq popF vs.length q = some (vs.map some, q') ∧
      q'.mReadPosition = q.mReadPosition + vs.length ∧
      q'.mWritePosition = q.mWritePosition ∧
      q'.mExitThread = q.mExitThread ∧
      q'.mExitThreadSemaphore = q.mExitThreadSemaphore ∧
      (∀ i, i < vs.length → q'.mRingBuffer ((q.mReadPosition + i) % 2 ^ n) = none) ∧
      (∀ m, (∀ i, i < vs.length → m ≠ (q.mReadPosition + i) % 2 ^ n) →
        q'.mRingBuffer m = q.mRingBuffer m) := by
  intro vs
  induction vs with
  | nil =>
    intro q hlen hpos hfull
    refine ⟨q, by simp [popSeq], by simp, rfl, rfl, rfl, ?_, fun m _ => rfl⟩
    intro i h
    exact absurd h (by simp)
  | cons x xs ih =>
    intro q hlen hpos hfull
    simp only [List.length_cons] at hlen hpos
    have hn : 0 < 2 ^ n := Nat.pos_pow_of_pos n (by omega)
    have hslot : q.mRingBuffer (q.mReadPosition &&& RBS) = some x := by
      rw [mask_eq_mod n RBS hR]
      simpa using hfull 0 (by simp)
    have hrp1 : (q.mReadPosition + 1) % UINT64_MOD = q.mReadPosition + 1 :=
      Nat.mod_eq_of_lt (by unfold UINT64_MOD at hpos ⊢; omega)
    set q1 : FastQueue Val := { q with
        mRingBuffer := fun i =>
          if i = q.mReadPosition &&& RBS then none else q.mRingBuffer i,
        mReadPosition := (q.mReadPosition + 1) % UINT64_MOD } with hq1def
    have hstep : popF q = some (some x, q1) := hvalF q x hslot
    have hq1rp : q1.mReadPosition = q.mReadPosition + 1 := hrp1
    have hq1wp : q1.mWritePosition = q.mWritePosition := rfl
    have hq1et : q1.mExitThread = q.mExitThread := rfl
    have hq1sem : q1.mExitThreadSemaphore = q.mExitThreadSemaphore := rfl
    have hq1ring : ∀ m, q1.mRingBuffer m =
        if m = q.mReadPosition % 2 ^ n then none else q.mRingBuffer m := by
      intro m
      show (if m = q.mReadPosition &&& RBS then none else q.mRingBuffer m) = _
      rw [mask_eq_mod n RBS hR]
    have harg2 : q1.mReadPosition + xs.length < UINT64_MOD := by
      rw [hq1rp]; omega
    have harg3 : ∀ i (h : i < xs.length),
        q1.mRingBuffer ((q1.mReadPosition + i) % 2 ^ n) = some xs[i] := by
      intro i hi
      rw [hq1rp, hq1ring]
      have hrearr : q.mReadPosition + 1 + i = q.mReadPosition + (1 + i) := by omega
      rw [if_neg (by
        rw [hrearr]
        exact mod_shift_ne (2 ^ n) q.mReadPosition (1 + i) (by omega) (by omega))]
      have hfi := hfull (i + 1) (by simp only [List.length_cons]; omega)
      have hidx : q.mReadPosition + 1 + i = q.mReadPosition + (i + 1) := by omega
      rw [hidx]
      simpa using hfi
    obtain ⟨q', hrun, hrp, hwp, het, hsem, hclear, hkeep⟩ :=
      ih q1 (by omega) harg2 harg3
    refine ⟨q', ?_, ?_, ?_, ?_, ?_, ?_, ?_⟩
    · show (popF q).bind _ = _
      rw [hstep, Option.some_bind, hrun]
      simp
    · rw [hrp, hq1rp]
      simp only [List.length_cons]
      omega
    · rw [hwp, hq1wp]
    · rw [het, hq1et]
    · rw [hsem, hq1sem]
    · intro i h
      rcases Nat.eq_zero_or_pos i with hi0 | hipos
      · subst hi0
        have hm : ∀ j, j < xs.length →
            (q.mReadPosition + 0) % 2 ^ n ≠ (q1.mReadPosition + j) % 2 ^ n := by
          intro j hj
          rw [hq1rp]
          simp only [Nat.add_zero]
          have hrearr : q.mReadPosition + 1 + j = q.mReadPosition + (1 + j) := by omega
          rw [hrearr]
          exact (mod_shift_ne (2 ^ n) q.mReadPosition (1 + j) (by omega) (by omega)).symm
        rw [hkeep _ hm, hq1ring]
        simp
      · obtain ⟨j, hj⟩ : ∃ j, i = j + 1 := ⟨i - 1, by omega⟩
        subst hj
        have hcj := hclear j (by simp only [List.length_cons] at h; omega)
        have hidx : q.mReadPosition + (j + 1) = q1.mReadPosition + j := by
          rw [hq1rp]; omega
        rw [hidx]
        exact hcj
    · intro m hm
      have hm1 : ∀ j, j < xs.length → m ≠ (q1.mReadPosition + j) % 2 ^ n := by
        intro j hj
        rw [hq1rp]
        have hrearr : q.mReadPosition + 1 + j = q.mReadPosition + (j + 1) := by omega
        rw [hrearr]
        exact hm (j + 1) (by simp only [List.length_cons]; omega)
      rw [hkeep m hm1, hq1ring]
      rw [if_neg (by
        have := hm 0 (by simp only [List.length_cons]; omega)
        simpa using this)]

end FQ

namespace FQ

variable {Val : Type}

theorem InvF_rp_le_wp (n b : Nat) (q : FastQueue Val) (l : List Val)
    (h : InvF n b q l) : q.mReadPosition ≤ q.mWritePosition := by
  obtain ⟨hwp, _, _, _, _, _, _⟩ := h
  omega

theorem push_step (n RBS b : Nat) (hR : RBS = 2 ^ n - 1)
    (q : FastQueue Val) (l : List Val) (x : Val)
    (h : InvF n b q l) (hlen : l.length < 2 ^ n)
    (hpos : q.mWritePosition + 1 < UINT64_MOD) :
    ∃ q', X86.push RBS q x = some q' ∧ q'.mWritePosition = q.mWritePosition + 1 ∧
      InvF n b q' (l ++ [x]) := by
  obtain ⟨hwp, hb, hl2n, het, hsem, hfill, hkeep⟩ := h
  have hnpos : 0 < 2 ^ n := Nat.pos_pow_of_pos n (by omega)
  have hslot : q.mRingBuffer (q.mWritePosition &&& RBS) = none := by
    rw [mask_eq_mod n RBS hR, hwp]
    apply hkeep
    intro i hi
    have hrearr : q.mReadPosition + l.length = q.mReadPosition + i + (l.length - i) := by omega
    rw [hrearr]
    exact mod_shift_ne (2 ^ n) (q.mReadPosition + i) (l.length - i) (by omega) (by omega)
  have hwp1 : (q.mWritePosition + 1) % UINT64_MOD = q.mWritePosition + 1 :=
    Nat.mod_eq_of_lt (by omega)
  refine ⟨{ q with
      mRingBuffer := fun i =>
        if i = q.mWritePosition &&& RBS then some x else q.mRingBuffer i,
      mWritePosition := (q.mWritePosition + 1) % UINT64_MOD },
    by unfold X86.push; rw [hslot], hwp1, ?_, hb, ?_, het, hsem, ?_, ?_⟩
  · show (q.mWritePosition + 1) % UINT64_MOD = q.mReadPosition + (l ++ [x]).length
    rw [hwp1, hwp]
    simp only [List.length_append, List.length_singleton]
    omega
  · simp only [List.length_append, List.length_singleton]
    omega
  · intro i hi
    simp only [List.length_append, List.length_singleton] at hi
    show (if (q.mReadPosition + i) % 2 ^ n = q.mWritePosition &&& RBS then some x
          else q.mRingBuffer ((q.mReadPosition + i) % 2 ^ n)) = _
    rw [mask_eq_mod n RBS hR, hwp]
    rcases Nat.lt_or_ge i l.length with hilt | hige
    · rw [if_neg (by
        have hrearr : q.mReadPosition + l.length = q.mReadPosition + i + (l.length - i) := by
          omega
        rw [hrearr]
        exact (mod_shift_ne (2 ^ n) (q.mReadPosition + i) (l.length - i)
          (by omega) (by omega)).symm)]
      rw [List.getElem_append_left hilt]
      exact hfill i hilt
    · have hieq : i = l.length := by omega
      subst hieq
      rw [if_pos rfl, List.getElem_append_right (by omega)]
      simp
  · intro m hm
    simp only [List.length_append, List.length_singleton] at hm
    show (if m = q.mWritePosition &&& RBS then some x else q.mRingBuffer m) = none
    rw [mask_eq_mod n RBS hR, hwp]
    rw [if_neg (hm l.length (by omega))]
    apply hkeep
    intro i hi
    exact hm i (by omega)

theorem push_full (n RBS b : Nat) (hR : RBS = 2 ^ n - 1)
    (q : FastQueue Val) (l : List Val) (x : Val)
    (h : InvF n b q l) (hlen : l.length = 2 ^ n) :
    X86.push RBS q x = none := by
  obtain ⟨hwp, hb, hl2n, het, hsem, hfill, hkeep⟩ := h
  have hnpos : 0 < 2 ^ n := Nat.pos_pow_of_pos n (by omega)
  have hslot : q.mRingBuffer (q.mWritePosition &&& RBS) = some l[0] := by
    rw [mask_eq_mod n RBS hR]
    have hmodeq : q.mWritePosition % 2 ^ n = q.mReadPosition % 2 ^ n := by
      rw [hwp, hlen]
      exact Nat.add_mod_right _ _
    rw [hmodeq]
    have := hfill 0 (by omega)
    simpa using this
  unfold X86.push
  rw [hslot, hsem]
  rfl

theorem pop_step_val (n RBS b : Nat) (hR : RBS = 2 ^ n - 1)
    (popF : FastQueue Val → Option (Option Val × FastQueue Val))
    (hvalF : ∀ (q : FastQueue Val) (v : Val),
      q.mRingBuffer (q.mReadPosition &&& RBS) = some v →
      popF q = some (some v, { q with
        mRingBuffer := fun i =>
          if i = q.mReadPosition &&& RBS then none else q.mRingBuffer i,
        mReadPosition := (q.mReadPosition + 1) % UINT64_MOD }))
    (q : FastQueue Val) (x : Val) (l : List Val)
    (h : InvF n b q (x :: l)) (hpos : q.mReadPosition + 1 < UINT64_MOD) :
    ∃ q', popF q = some (some x, q') ∧ q'.mWritePosition = q.mWritePosition ∧
      InvF n b q' l := by
  obtain ⟨hwp, hb, hl2n, het, hsem, hfill, hkeep⟩ := h
  simp only [List.length_cons] at hwp hl2n
  have hnpos : 0 < 2 ^ n := Nat.pos_pow_of_pos n (by omega)
  have hslot : q.mRingBuffer (q.mReadPosition &&& RBS) = some x := by
    rw [mask_eq_mod n RBS hR]
    simpa using hfill 0 (by simp)
  refine ⟨_, hvalF q x hslot, rfl, ?_⟩
  have hrp1 : (q.mReadPosition + 1) % UINT64_MOD = q.mReadPosition + 1 :=
    Nat.mod_eq_of_lt (by omega)
  refine ⟨?_, ?_, by omega, het, hsem, ?_, ?_⟩
  · show q.mWritePosition = (q.mReadPosition + 1) % UINT64_MOD + l.length
    rw [hrp1]
    omega
  · show b ≤ (q.mReadPosition + 1) % UINT64_MOD
    rw [hrp1]
    omega
  · intro i hi
    show (if ((q.mReadPosition + 1) % UINT64_MOD + i) % 2 ^ n = q.mReadPosition &&& RBS
          then none
          else q.mRingBuffer (((q.mReadPosition + 1) % UINT64_MOD + i) % 2 ^ n)) = _
    rw [hrp1, mask_eq_mod n RBS hR]
    have hrearr : q.mReadPosition + 1 + i = q.mReadPosition + (1 + i) := by omega
    rw [if_neg (by
      rw [hrearr]
      exact mod_shift_ne (2 ^ n) q.mReadPosition (1 + i) (by omega) (by omega))]
    have hfi := hfill (i + 1) (by simp only [List.length_cons]; omega)
    have hidx : q.mReadPosition + 1 + i = q.mReadPosition + (i + 1) := by omega
    rw [hidx]
    simpa using hfi
  · intro m hm
    show (if m = q.mReadPosition &&& RBS then none else q.mRingBuffer m) = none
    rw [mask_eq_mod n RBS hR]
    by_cases hm0 : m = q.mReadPosition % 2 ^ n
    · rw [if_pos hm0]
    · rw [if_neg hm0]
      apply hkeep
      intro i hi
      rcases Nat.eq_zero_or_pos i with hi0 | hipos
      · subst hi0
        simpa using hm0
      · obtain ⟨j, hj⟩ : ∃ j, i = j + 1 := ⟨i - 1, by omega⟩
        subst hj
        have hmj := hm j (by simp only [List.length_cons] at hi; omega)
        rw [hrp1] at hmj
        have hidx : q.mReadPosition + (j + 1) = q.mReadPosition + 1 + j := by omega
        rw [hidx]
        exact hmj

theorem pop_empty_slot (n RBS b : Nat) (hR : RBS = 2 ^ n - 1)
    (q : FastQueue Val) (h : InvF n b q []) :
    q.mRingBuffer (q.mReadPosition &&& RBS) = none := by
  obtain ⟨hwp, hb, hl2n, het, hsem, hfill, hkeep⟩ := h
  rw [mask_eq_mod n RBS hR]
  apply hkeep
  intro i hi
  exact absurd hi (by simp)

end FQ

namespace FQ

variable {Val : Type}

theorem runFOps_fifo (n RBS b : Nat) (hR : RBS = 2 ^ n - 1)
    (popF : FastQueue Val → Option (Option Val × FastQueue Val))
    (hvalF : ∀ (q : FastQueue Val) (v : Val),
      q.mRingBuffer (q.mReadPosition &&& RBS) = some v →
      popF q = some (some v, { q with
        mRingBuffer := fun i =>
          if i = q.mReadPosition &&& RBS then none else q.mRingBuffer i,
        mReadPosition := (q.mReadPosition + 1) % UINT64_MOD }))
    (hspinF : ∀ q : FastQueue Val,
      q.mRingBuffer (q.mReadPosition &&& RBS) = none →
      q.mExitThread = 0 → q.mExitThreadSemaphore = false → b ≤ q.mReadPosition →
      popF q = none) :
    ∀ (ops : List (FOp Val)) (q : FastQueue Val) (l : List Val)
      (outs : List (Option Val)) (qf : FastQueue Val),
    InvF n b q l →
    q.mWritePosition + fNumPushes ops < UINT64_MOD →
    runFOps (X86.push RBS) popF ops q = some (outs, qf) →
    ∃ lf, InvF n b qf lf ∧
      outs ++ List.map some lf = List.map some (l ++ fPushedOf ops) ∧
      outs.length = fNumPops ops := by
  intro ops
  induction ops with
  | nil =>
    intro q l outs qf h hroom hrun
    simp only [runFOps, Option.some.injEq, Prod.mk.injEq] at hrun
    obtain ⟨h1, h2⟩ := hrun
    subst h1; subst h2
    exact ⟨l, h, by simp [fPushedOf], by simp [fNumPops]⟩
  | cons op ops ih =>
    intro q l outs qf h hroom hrun
    cases op with
    | push x =>
      simp only [fNumPushes] at hroom
      rcases Nat.lt_or_ge l.length (2 ^ n) with hlt | hge
      · obtain ⟨q', hpush, hwp', h'⟩ := push_step n RBS b hR q l x h hlt (by omega)
        simp only [runFOps, hpush, Option.some_bind] at hrun
        obtain ⟨lf, hf, heq, hlen⟩ := ih q' (l ++ [x]) outs qf h' (by rw [hwp']; omega) hrun
        refine ⟨lf, hf, ?_, by simpa [fNumPops] using hlen⟩
        rw [heq]
        simp [fPushedOf]
      · have hlee : l.length ≤ 2 ^ n := h.2.2.1
        have heqn : l.length = 2 ^ n := by omega
        rw [runFOps, push_full n RBS b hR q l x h heqn, Option.none_bind] at hrun
        exact absurd hrun (by simp)
    | pop =>
      cases l with
      | nil =>
        have hspin : popF q = none := by
          apply hspinF q (pop_empty_slot n RBS b hR q h) h.2.2.2.1 h.2.2.2.2.1 h.2.1
        rw [runFOps, hspin, Option.none_bind] at hrun
        exact absurd hrun (by simp)
      | cons y l' =>
        have hrpbound : q.mReadPosition + 1 < UINT64_MOD := by
          obtain ⟨hwp, _, _, _, _, _, _⟩ := h
          simp only [List.length_cons] at hwp
          simp only [fNumPushes] at hroom
          omega
        obtain ⟨q', hpop, hwp', h'⟩ := pop_step_val n RBS b hR popF hvalF q y l' h hrpbound
        simp only [runFOps, hpop, Option.some_bind] at hrun
        rcases Option.map_eq_some'.mp hrun with ⟨⟨outs', qf'⟩, hrun', hpair⟩
        injection hpair with hp1 hp2
        subst hp2
        obtain ⟨lf, hf, heq, hlen⟩ := ih q' l' outs' qf' h'
          (by rw [hwp']; simpa [fNumPushes] using hroom) hrun'
        refine ⟨lf, hf, ?_, ?_⟩
        · subst hp1
          simp only [List.cons_append, List.map_cons, fPushedOf]
          rw [← heq]
        · subst hp1
          simp [fNumPops, hlen]

end FQ

namespace FQ

variable {Val : Type}

theorem popSeq_const (popF : FastQueue Val → Option (Option Val × FastQueue Val))
    (s : FastQueue Val) (h : popF s = some (none, s)) :
    ∀ k, popSeq popF k s = some (List.replicate k none, s) := by
  intro k
  induction k with
  | zero => simp [popSeq]
  | succ k ih => simp [popSeq, h, ih, List.replicate_succ]

theorem pop_none_eq_x86 (RBS : Nat) (q s : FastQueue Val)
    (h : X86.pop RBS q = some (none, s)) : s = q := by
  unfold X86.pop at h
  split at h
  · simp at h
  · split_ifs at h
    simp only [Option.some.injEq, Prod.mk.injEq, true_and] at h
    exact h.symm

theorem pop_none_eq_a64 (RBS : Nat) (q s : FastQueue Val)
    (h : A64.pop RBS q = some (none, s)) : s = q := by
  unfold A64.pop at h
  split at h
  · simp at h
  · split_ifs at h
    simp only [Option.some.injEq, Prod.mk.injEq, true_and] at h
    exact h.symm

theorem start_InvF_x86 (n : Nat) : InvF n 0 (X86.start Val) [] :=
  ⟨rfl, Nat.le_refl 0, Nat.zero_le _, rfl, rfl,
   fun _ hi => absurd hi (by simp), fun _ _ => rfl⟩

theorem start_InvF_a64 (n : Nat) : InvF n 1 (A64.start Val) [] :=
  ⟨rfl, Nat.le_refl 1, Nat.zero_le _, rfl, rfl,
   fun _ hi => absurd hi (by simp), fun _ _ => rfl⟩

end FQ

namespace FQ

variable {Val : Type}

theorem stop_drain_generic (n RBS : Nat) (hn : n ≤ 63) (hR : RBS = 2 ^ n - 1)
    (popF : FastQueue Val → Option (Option Val × FastQueue Val))
    (hvalF : ∀ (q : FastQueue Val) (v : Val),
      q.mRingBuffer (q.mReadPosition &&& RBS) = some v →
      popF q = some (some v, { q with
        mRingBuffer := fun i =>
          if i = q.mReadPosition &&& RBS then none else q.mRingBuffer i,
        mReadPosition := (q.mReadPosition + 1) % UINT64_MOD }))
    (hsent : ∀ q : FastQueue Val,
      q.mRingBuffer (q.mReadPosition &&& RBS) = none →
      q.mExitThread = q.mReadPosition →
      q.mExitThreadSemaphore = true →
      popF q = some (none, q))
    (b : Nat) (hb : b ≤ 1) (q0 : FastQueue Val)
    (h0rp : q0.mReadPosition = b) (h0wp : q0.mWritePosition = b)
    (h0ring : ∀ m, q0.mRingBuffer m = none)
    (vs : List Val) (hk : vs.length ≤ RBS) :
    (pushSeq (X86.push RBS) vs q0).bind (fun s1 =>
      (popSeq popF (vs.length + 1) (stopQueue s1)).map Prod.fst)
      = some (List.map some vs ++ [none]) := by
  have hnpos : 0 < 2 ^ n := Nat.pos_pow_of_pos n (by omega)
  have h2n : (2 : Nat) ^ n ≤ 2 ^ 63 := Nat.pow_le_pow_right (by omega) hn
  have h63 : (2 : Nat) ^ 63 < 2 ^ 64 := by norm_num
  have hlen2 : vs.length ≤ 2 ^ n := by omega
  have hMOD : UINT64_MOD = 2 ^ 64 := rfl
  -- push phase
  obtain ⟨s1, hrun1, h1rp, h1wp, h1et, h1sem, h1fill, h1keep⟩ :=
    pushSeq_fill n RBS hR vs q0 hlen2
      (by rw [h0wp, hMOD]; omega)
      (fun i _ => h0ring _)
  rw [hrun1, Option.some_bind]
  -- the stopped queue
  have h2rp : (stopQueue s1).mReadPosition = b := by
    show s1.mReadPosition = b
    rw [h1rp, h0rp]
  have h2wp : (stopQueue s1).mWritePosition = b + vs.length := by
    show s1.mWritePosition = b + vs.length
    rw [h1wp, h0wp]
  have h2et : (stopQueue s1).mExitThread = b + vs.length := by
    show s1.mWritePosition = b + vs.length
    rw [h1wp, h0wp]
  have h2sem : (stopQueue s1).mExitThreadSemaphore = true := rfl
  have h2ring : ∀ m, (stopQueue s1).mRingBuffer m = s1.mRingBuffer m := fun _ => rfl
  -- drain phase
  obtain ⟨s3, hrun3, h3rp, h3wp, h3et, h3sem, h3clear, h3keep⟩ :=
    popSeq_vals n RBS hR popF hvalF vs (stopQueue s1) hlen2
      (by rw [h2rp, hMOD]; omega)
      (by
        intro i hi
        rw [h2ring, h2rp]
        have := h1fill i hi
        rw [h0wp] at this
        exact this)
  rw [popSeq_add popF vs.length 1, hrun3, Option.some_bind]
  -- the slot at the frozen marker is still null
  have hfree : ∀ i, i < vs.length → (b + vs.length) % 2 ^ n ≠ (b + i) % 2 ^ n := by
    intro i hi
    have hrearr : b + vs.length = b + i + (vs.length - i) := by omega
    rw [hrearr]
    exact mod_shift_ne (2 ^ n) (b + i) (vs.length - i) (by omega) (by omega)
  have hslot3 : s3.mRingBuffer (s3.mReadPosition &&& RBS) = none := by
    rw [mask_eq_mod n RBS hR, h3rp, h2rp]
    rw [h3keep _ (by
      intro i hi
      rw [h2rp]
      exact hfree i hi)]
    rw [h2ring, h1keep _ (by
      intro i hi
      rw [h0wp]
      exact hfree i hi)]
    exact h0ring _
  have hmark3 : s3.mExitThread = s3.mReadPosition := by
    rw [h3et, h2et, h3rp, h2rp]
  have hsem3 : s3.mExitThreadSemaphore = true := by
    rw [h3sem, h2sem]
  have hlast : popF s3 = some (none, s3) := hsent s3 hslot3 hmark3 hsem3
  have hone : popSeq popF 1 s3 = some ([none], s3) := by
    show (popF s3).bind _ = _
    rw [hlast, Option.some_bind]
    simp [popSeq]
  dsimp only
  rw [hone]
  simp

end FQ

/-- C1: the spec and the claim say that filling the index-tracked queue to
capacity and then calling `force_push(x)` leaves `size()` at capacity and
makes the next `pop` yield the second-oldest value.  The code does not do
this: `force_emplace` on a full queue writes into the slack slot and
advances the write cursor onto the read cursor, so the queue reads as
empty.  At the failing input — capacity 2, pushes of 1 and 2, then
`force_push 3` — the code yields `size() = 0`, `empty() = true`, and a
failing `try_pop`, where the claim demands `size() = 2` and a pop
yielding 2. -/
theorem C1_force_push_full_queue_bug :
    ((Dro.emplace (Dro.mkQueue Nat 2 8) 1).bind fun q1 =>
      (Dro.emplace q1 2).map fun q2 =>
        (Dro.size (Dro.force_emplace q2 3),
         Dro.emptyQ (Dro.force_emplace q2 3),
         (Dro.try_pop (Dro.force_emplace q2 3)).1)) = some (0, true, none) := rfl

/-- C2: for the sentinel-tracked queue (both variants), pushing `k ≤
RING_BUFFER_SIZE` values, calling `stopQueue()`, and then popping `k + 1`
times yields exactly the `k` pushed values in order followed by the null
sentinel: shutdown discards nothing and the `(k+1)`-th pop returns
end-of-stream instead of spinning.  (`RING_BUFFER_SIZE = 2^n - 1` is the
static assertion of both headers; `n ≤ 63` reflects that a ring of `2^n`
8-byte slots must fit in the 64-bit address space.) -/
theorem C2_stop_drain_end_of_stream (Val : Type) (n RBS : Nat)
    (hn : n ≤ 63) (hR : RBS = 2 ^ n - 1)
    (vs : List Val) (hk : vs.length ≤ RBS) :
    ((FQ.pushSeq (FQ.X86.push RBS) vs (FQ.X86.start Val)).bind fun s1 =>
      (FQ.popSeq (FQ.X86.pop RBS) (vs.length + 1) (FQ.stopQueue s1)).map Prod.fst)
      = some (List.map some vs ++ [none]) ∧
    ((FQ.pushSeq (FQ.A64.push RBS) vs (FQ.A64.start Val)).bind fun s1 =>
      (FQ.popSeq (FQ.A64.pop RBS) (vs.length + 1) (FQ.stopQueue s1)).map Prod.fst)
      = some (List.map some vs ++ [none]) := by
  constructor
  · exact FQ.stop_drain_generic n RBS hn hR (FQ.X86.pop RBS)
      (FQ.pop_value_x86 RBS)
      (fun q hslot hmark hsem => FQ.pop_sentinel_x86 RBS q hslot hmark hsem)
      0 (by omega) (FQ.X86.start Val) rfl rfl (fun _ => rfl) vs hk
  · have hpe : @FQ.A64.push Val RBS = @FQ.X86.push Val RBS := rfl
    rw [hpe]
    exact FQ.stop_drain_generic n RBS hn hR (FQ.A64.pop RBS)
      (FQ.pop_value_a64 RBS)
      (fun q hslot hmark _ => FQ.pop_sentinel_a64 RBS q hslot hmark)
      1 (by omega) (FQ.A64.start Val) rfl rfl (fun _ => rfl) vs hk

/-- Witness for C2 at `n = 2`, `RING_BUFFER_SIZE = 3`, values `[10, 20]`. -/
theorem C2_stop_drain_end_of_stream_witness :
    (2 ≤ 63 ∧ 3 = 2 ^ 2 - 1 ∧ ([10, 20] : List Nat).length ≤ 3) ∧
    ((FQ.pushSeq (FQ.X86.push 3) [10, 20] (FQ.X86.start Nat)).bind fun s1 =>
      (FQ.popSeq (FQ.X86.pop 3) 3 (FQ.stopQueue s1)).map Prod.fst)
      = some [some 10, some 20, none] ∧
    ((FQ.pushSeq (FQ.A64.push 3) [10, 20] (FQ.A64.start Nat)).bind fun s1 =>
      (FQ.popSeq (FQ.A64.pop 3) 3 (FQ.stopQueue s1)).map Prod.fst)
      = some [some 10, some 20, none] :=
  ⟨⟨by decide, by decide, by decide⟩,
   (C2_stop_drain_end_of_stream Nat 2 3 (by decide) (by decide) [10, 20] (by decide)).1,
   (C2_stop_drain_end_of_stream Nat 2 3 (by decide) (by decide) [10, 20] (by decide)).2⟩

/-- C3: from an empty index-tracked queue of capacity `c`, the first `c`
consecutive `try_push` calls return `true` and the `(c+1)`-th returns
`false`, with no pops in between. -/
theorem C3_try_push_capacity_bound (Val : Type) [Inhabited Val] (c pad : Nat)
    (hc : 1 ≤ c) (vs : List Val) (hlen : vs.length = c + 1) :
    (Dro.tryPushRun vs (Dro.mkQueue Val c pad)).1
      = List.replicate c true ++ [false] := by
  have := Dro.tryPushRun_aux c hc vs (Dro.mkQueue Val c pad) 0 rfl rfl rfl rfl
    (by omega) (by omega)
  simpa using this

/-- Witness for C3 at capacity 2: three consecutive try_pushes return
`[true, true, false]`. -/
theorem C3_try_push_capacity_bound_witness :
    (Dro.tryPushRun [5, 6, 7] (Dro.mkQueue Nat 2 0)).1 = [true, true, false] :=
  C3_try_push_capacity_bound Nat 2 0 (by decide) [5, 6, 7] (by decide)

/-- C4, counterexample: at requested capacity `2^64 - 1` (with 8-byte
elements) the padded size `capacity + 1 + 2·padding` exceeds the range of
`std::size_t`, yet the constructor raises no overflow error: the member
initialiser computes `capacity_ = capacity + 1` in `std::size_t`, which
wraps to 0, and the subsequent range check passes. -/
theorem C4_overflow_check_counterexample :
    Dro.heapBufferCtor 8 (2 ^ 64 - 1) = Dro.HeapCtorResult.ok 0 ∧
    2 ^ 64 - 1 + 1 + 2 * Dro.paddingOf 8 > Dro.MAX_SIZE_T := by
  constructor
  · rfl
  · decide

/-- C4, amended: for `1 ≤ capacity ≤ 2^64 - 1`, construction raises an
overflow error iff `capacity < 2^64 - 1` and the padded size
`capacity + 1 + 2·padding` exceeds `2^64 - 1`; at `capacity = 2^64 - 1`
the computed size wraps to zero and construction succeeds (with a
degenerate internal capacity 0); in every non-wrapping success case the
usable capacity `capacity_ - 1` equals the requested capacity. -/
theorem C4_overflow_check_amended (sizeofT capacity : Nat)
    (_hs : 1 ≤ sizeofT) (hc : 1 ≤ capacity) (hle : capacity ≤ Dro.MAX_SIZE_T) :
    (Dro.heapBufferCtor sizeofT capacity = Dro.HeapCtorResult.overflowError ↔
      capacity < Dro.MAX_SIZE_T ∧
        capacity + 1 + 2 * Dro.paddingOf sizeofT > Dro.MAX_SIZE_T) ∧
    (capacity = Dro.MAX_SIZE_T →
      Dro.heapBufferCtor sizeofT capacity = Dro.HeapCtorResult.ok 0) ∧
    (∀ c_, Dro.heapBufferCtor sizeofT capacity = Dro.HeapCtorResult.ok c_ →
      capacity < Dro.MAX_SIZE_T → c_ - 1 = capacity) := by
  have hpad : Dro.paddingOf sizeofT ≤ 64 := by
    unfold Dro.paddingOf Dro.cacheLineSize
    have := Nat.div_le_self (64 - 1) sizeofT
    omega
  have hMAX : Dro.MAX_SIZE_T = 2 ^ 64 - 1 := rfl
  have h2pos : (2 : Nat) ^ 64 - 1 ≥ 128 := by norm_num
  rw [hMAX] at hle ⊢
  simp only [Dro.heapBufferCtor, hMAX]
  rcases Nat.lt_or_ge capacity (2 ^ 64 - 1) with hlt | hge
  · have hmod : (capacity + 1) % 2 ^ 64 = capacity + 1 :=
      Nat.mod_eq_of_lt (by omega)
    rw [hmod, if_neg (by omega)]
    by_cases hov : capacity + 1 > 2 ^ 64 - 1 - 2 * Dro.paddingOf sizeofT
    · rw [if_pos hov]
      refine ⟨⟨fun _ => ⟨hlt, by omega⟩, fun _ => rfl⟩, fun heq => by omega, ?_⟩
      intro c_ hc_
      exact absurd hc_ (by simp)
    · rw [if_neg hov]
      refine ⟨⟨fun hcon => by simp at hcon, fun hcon => ?_⟩, fun heq => by omega, ?_⟩
      · exact absurd hcon.2 (by omega)
      · intro c_ hc_ _
        simp only [Dro.HeapCtorResult.ok.injEq] at hc_
        omega
  · have heq : capacity = 2 ^ 64 - 1 := by omega
    subst heq
    have hmod : (2 ^ 64 - 1 + 1) % 2 ^ 64 = 0 := by
      have hsum : (2 : Nat) ^ 64 - 1 + 1 = 2 ^ 64 := by norm_num
      rw [hsum, Nat.mod_self]
    rw [hmod, if_neg (by omega), if_neg (by omega)]
    refine ⟨⟨fun hcon => by simp at hcon, fun hcon => by omega⟩, fun _ => rfl, ?_⟩
    intro c_ _ hlt
    omega

/-- Witness for C4's amended claim at `sizeof(T) = 8`, capacity 5:
construction succeeds with `capacity_ = 6` and usable capacity 5. -/
theorem C4_overflow_check_amended_witness :
    Dro.heapBufferCtor 8 5 = Dro.HeapCtorResult.ok 6 ∧ 6 - 1 = 5 :=
  ⟨by decide,
   (C4_overflow_check_amended 8 5 (by decide) (by decide) (by decide)).2.2 6
     (by decide) (by decide)⟩

/-- C5: FIFO delivery.  For any schedule of whole push/pop operations run
sequentially from a fresh queue, if every operation completes then the
sequence of popped values is exactly the first `numPops` pushed values in
order — no reordering, no duplication, no loss.  This holds for the
index-tracked queue (any capacity ≥ 1) and for both variants of the
sentinel-tracked queue, whose pops in such runs moreover never yield the
null sentinel (every output is a pushed value).  For the sentinel queues
the schedule's push count is bounded so that the 64-bit write position
cannot wrap during the run. -/
theorem C5_fifo_delivery :
    (∀ (Val : Type) [Inhabited Val] (c pad : Nat), 1 ≤ c →
      ∀ (ops : List (Dro.QOp Val)) (outs : List Val) (qf : Dro.SPSCQueue Val),
      Dro.runOps ops (Dro.mkQueue Val c pad) = some (outs, qf) →
      outs = (Dro.pushedOf ops).take (Dro.numPops ops)) ∧
    (∀ (Val : Type) (n RBS : Nat), RBS = 2 ^ n - 1 →
      ∀ (ops : List (FQ.FOp Val)) (outs : List (Option Val)) (qf : FQ.FastQueue Val),
      FQ.fNumPushes ops + 1 < FQ.UINT64_MOD →
      FQ.runFOps (FQ.X86.push RBS) (FQ.X86.pop RBS) ops (FQ.X86.start Val)
        = some (outs, qf) →
      outs = List.map some ((FQ.fPushedOf ops).take (FQ.fNumPops ops))) ∧
    (∀ (Val : Type) (n RBS : Nat), RBS = 2 ^ n - 1 →
      ∀ (ops : List (FQ.FOp Val)) (outs : List (Option Val)) (qf : FQ.FastQueue Val),
      FQ.fNumPushes ops + 1 < FQ.UINT64_MOD →
      FQ.runFOps (FQ.A64.push RBS) (FQ.A64.pop RBS) ops (FQ.A64.start Val)
        = some (outs, qf) →
      outs = List.map some ((FQ.fPushedOf ops).take (FQ.fNumPops ops))) := by
  refine ⟨?_, ?_, ?_⟩
  · intro Val _ c pad hc ops outs qf hrun
    obtain ⟨lf, _, heq, hlen⟩ :=
      Dro.runOps_spec ops (Dro.mkQueue Val c pad) [] outs qf
        (Dro.mkQueue_InvQ Val c pad hc) hrun
    simp only [List.nil_append] at heq
    rw [heq, ← hlen, List.take_left]
  · intro Val n RBS hR ops outs qf hroom hrun
    obtain ⟨lf, _, heq, hlen⟩ :=
      FQ.runFOps_fifo n RBS 0 hR (FQ.X86.pop RBS)
        (FQ.pop_value_x86 RBS)
        (fun q hslot _ hsem _ => FQ.pop_spin_x86 RBS q hslot hsem)
        ops (FQ.X86.start Val) [] outs qf (FQ.start_InvF_x86 n)
        (by show 0 + FQ.fNumPushes ops < FQ.UINT64_MOD; omega) hrun
    simp only [List.nil_append] at heq
    rw [List.map_take, ← heq, ← hlen, List.take_left]
  · intro Val n RBS hR ops outs qf hroom hrun
    have hpe : @FQ.A64.push Val RBS = @FQ.X86.push Val RBS := rfl
    rw [hpe] at hrun
    obtain ⟨lf, _, heq, hlen⟩ :=
      FQ.runFOps_fifo n RBS 1 hR (FQ.A64.pop RBS)
        (FQ.pop_value_a64 RBS)
        (fun q hslot het _ hb => FQ.pop_spin_a64 RBS q hslot (by omega))
        ops (FQ.A64.start Val) [] outs qf (FQ.start_InvF_a64 n)
        (by show 1 + FQ.fNumPushes ops < FQ.UINT64_MOD; omega) hrun
    simp only [List.nil_append] at heq
    rw [List.map_take, ← heq, ← hlen, List.take_left]

/-- Witness for C5: concrete schedules on all three queues.  A capacity-1
index-tracked queue runs push 7, pop; both sentinel queues (ring size 3)
run push 10, push 20, pop, pop. -/
theorem C5_fifo_delivery_witness :
    ((Dro.runOps [Dro.QOp.push 7, Dro.QOp.pop] (Dro.mkQueue Nat 1 0)).map Prod.fst
      = some [7]) ∧
    ((FQ.runFOps (FQ.X86.push 3) (FQ.X86.pop 3)
        [FQ.FOp.push 10, FQ.FOp.push 20, FQ.FOp.pop, FQ.FOp.pop]
        (FQ.X86.start Nat)).map Prod.fst = some [some 10, some 20]) ∧
    ((FQ.runFOps (FQ.A64.push 3) (FQ.A64.pop 3)
        [FQ.FOp.push 10, FQ.FOp.push 20, FQ.FOp.pop, FQ.FOp.pop]
        (FQ.A64.start Nat)).map Prod.fst = some [some 10, some 20]) := by
  refine ⟨?_, ?_, ?_⟩
  · cases hrun : Dro.runOps [Dro.QOp.push 7, Dro.QOp.pop] (Dro.mkQueue Nat 1 0) with
    | none =>
      have hs : (Dro.runOps [Dro.QOp.push 7, Dro.QOp.pop]
          (Dro.mkQueue Nat 1 0)).isSome = true := rfl
      rw [hrun] at hs
      exact absurd hs (by simp)
    | some p =>
      have hp := C5_fifo_delivery.1 Nat 1 0 (by decide)
        [Dro.QOp.push 7, Dro.QOp.pop] p.1 p.2 hrun
      exact congrArg some hp
  · cases hrun : FQ.runFOps (FQ.X86.push 3) (FQ.X86.pop 3)
        [FQ.FOp.push 10, FQ.FOp.push 20, FQ.FOp.pop, FQ.FOp.pop]
        (FQ.X86.start Nat) with
    | none =>
      have hs : (FQ.runFOps (FQ.X86.push 3) (FQ.X86.pop 3)
          [FQ.FOp.push 10, FQ.FOp.push 20, FQ.FOp.pop, FQ.FOp.pop]
          (FQ.X86.start Nat)).isSome = true := rfl
      rw [hrun] at hs
      exact absurd hs (by simp)
    | some p =>
      have hp := C5_fifo_delivery.2.1 Nat 2 3 (by decide)
        [FQ.FOp.push 10, FQ.FOp.push 20, FQ.FOp.pop, FQ.FOp.pop] p.1 p.2
        (by decide) hrun
      exact congrArg some hp
  · cases hrun : FQ.runFOps (FQ.A64.push 3) (FQ.A64.pop 3)
        [FQ.FOp.push 10, FQ.FOp.push 20, FQ.FOp.pop, FQ.FOp.pop]
        (FQ.A64.start Nat) with
    | none =>
      have hs : (FQ.runFOps (FQ.A64.push 3) (FQ.A64.pop 3)
          [FQ.FOp.push 10, FQ.FOp.push 20, FQ.FOp.pop, FQ.FOp.pop]
          (FQ.A64.start Nat)).isSome = true := rfl
      rw [hrun] at hs
      exact absurd hs (by simp)
    | some p =>
      have hp := C5_fifo_delivery.2.2 Nat 2 3 (by decide)
        [FQ.FOp.push 10, FQ.FOp.push 20, FQ.FOp.pop, FQ.FOp.pop] p.1 p.2
        (by decide) hrun
      exact congrArg some hp

/-- C6: for an index-tracked queue of capacity 1 (any padding, i.e. any
element size): the first `try_push` succeeds, the queue then reports
not-empty, a second `try_push` without a pop fails, and after one pop a
further `try_push` succeeds again — the slack slot prevents false
fullness at capacity 1. -/
theorem C6_capacity_one_slack_slot (pad : Nat) :
    (Dro.try_emplace (Dro.mkQueue Nat 1 pad) 7).1 = true ∧
    Dro.emptyQ (Dro.try_emplace (Dro.mkQueue Nat 1 pad) 7).2 = false ∧
    (Dro.try_emplace (Dro.try_emplace (Dro.mkQueue Nat 1 pad) 7).2 8).1 = false ∧
    ((Dro.pop (Dro.try_emplace (Dro.try_emplace (Dro.mkQueue Nat 1 pad) 7).2 8).2).map
      fun vq => (vq.1, (Dro.try_emplace vq.2 9).1)) = some (7, true) := by
  refine ⟨?_, ?_, ?_, ?_⟩ <;>
    simp [Dro.mkQueue, Dro.try_emplace, Dro.pop, Dro.emptyQ, Dro.read_value,
      Dro.write_value]

/-- C7: whenever the index-tracked queue is full (in any state reachable
by single-threaded use, expressed by the invariant `Dro.Inv`),
`try_emplace` returns `false` and the resulting state is identical except
for the refreshed producer-side read-index shadow cache: write cursor,
read cursor and every buffer cell are untouched. -/
theorem C7_try_push_full_no_mutation (Val : Type) (q : Dro.SPSCQueue Val) (x : Val)
    (hinv : Dro.Inv q) (hfull : Dro.occ q = Dro.capacity q) :
    Dro.try_emplace q x = (false, { q with readIndexCache_ := q.readIndex_ }) := by
  obtain ⟨hcap, hw, hr, hrc, hwc, hcc, hlag1, hlag2⟩ := hinv
  unfold Dro.capacity at hfull
  obtain ⟨cap, pad, buf, w, rc, r, wc, cc⟩ := q
  dsimp only [Dro.occ, Dro.wrapDist] at hcap hw hr hrc hwc hcc hlag1 hlag2 hfull
  unfold Dro.try_emplace
  dsimp only
  split_ifs at hfull hlag1 hlag2 ⊢ <;> first | rfl | (exfalso; omega)

/-- Witness for C7: a full capacity-1 queue (one element at cell 0). -/
theorem C7_try_push_full_no_mutation_witness :
    Dro.Inv (⟨2, 0, fun _ => 5, 1, 0, 0, 0, 2⟩ : Dro.SPSCQueue Nat) ∧
    Dro.occ (⟨2, 0, fun _ => 5, 1, 0, 0, 0, 2⟩ : Dro.SPSCQueue Nat)
      = Dro.capacity (⟨2, 0, fun _ => 5, 1, 0, 0, 0, 2⟩ : Dro.SPSCQueue Nat) ∧
    Dro.try_emplace (⟨2, 0, fun _ => 5, 1, 0, 0, 0, 2⟩ : Dro.SPSCQueue Nat) 9
      = (false, ⟨2, 0, fun _ => 5, 1, 0, 0, 0, 2⟩) := by
  have hinv : Dro.Inv (⟨2, 0, fun _ => 5, 1, 0, 0, 0, 2⟩ : Dro.SPSCQueue Nat) := by
    refine ⟨?_, ?_, ?_, ?_, ?_, ?_, ?_, ?_⟩ <;>
      simp [Dro.occ, Dro.wrapDist]
  have hfull : Dro.occ (⟨2, 0, fun _ => 5, 1, 0, 0, 0, 2⟩ : Dro.SPSCQueue Nat)
      = Dro.capacity (⟨2, 0, fun _ => 5, 1, 0, 0, 0, 2⟩ : Dro.SPSCQueue Nat) := by
    simp [Dro.occ, Dro.wrapDist, Dro.capacity]
  exact ⟨hinv, hfull, C7_try_push_full_no_mutation Nat _ 9 hinv hfull⟩

/-- C8, counterexample: the claim says exactly one of the two variants
checks the shutdown flag in `push`'s wait condition while the other does
not consult it at all inside `push`.  In fact both behave identically: on
a full one-slot ring with the shutdown flag raised, both pushes abandon
immediately (returning with the state unchanged), and with the flag down
both spin forever. -/
theorem C8_push_shutdown_asymmetry_counterexample :
    (FQ.X86.push 0 (⟨0, 0, 0, true, fun _ => some 1⟩ : FQ.FastQueue Nat) 9
       = some ⟨0, 0, 0, true, fun _ => some 1⟩ ∧
     FQ.A64.push 0 (⟨0, 0, 0, true, fun _ => some 1⟩ : FQ.FastQueue Nat) 9
       = some ⟨0, 0, 0, true, fun _ => some 1⟩) ∧
    (FQ.X86.push 0 (⟨0, 0, 0, false, fun _ => some 1⟩ : FQ.FastQueue Nat) 9 = none ∧
     FQ.A64.push 0 (⟨0, 0, 0, false, fun _ => some 1⟩ : FQ.FastQueue Nat) 9 = none) :=
  ⟨⟨rfl, rfl⟩, ⟨rfl, rfl⟩⟩

/-- C8, amended: the two variants' `push` operations are identical — both
check the shutdown flag in the wait condition and abandon a waiting push
when shutdown is requested.  The variants differ instead in `pop`: on an
empty slot with the frozen marker equal to the read position but the
shutdown flag down, the x86_64 `pop` keeps spinning (it requires the flag
as well), while the arm64 `pop` — which consults only the marker —
returns the null sentinel. -/
theorem C8_push_shutdown_asymmetry_amended :
    (∀ (Val : Type) (RBS : Nat) (q : FQ.FastQueue Val) (x : Val),
      FQ.X86.push RBS q x = FQ.A64.push RBS q x) ∧
    FQ.X86.pop 0 (⟨5, 9, 5, false, fun _ => none⟩ : FQ.FastQueue Nat) = none ∧
    FQ.A64.pop 0 (⟨5, 9, 5, false, fun _ => none⟩ : FQ.FastQueue Nat)
      = some (none, ⟨5, 9, 5, false, fun _ => none⟩) :=
  ⟨fun _ _ _ _ => rfl, rfl, rfl⟩

/-- C9, counterexample: the claim says an element pushed after
`stopQueue()` is never returned by any pop, the consumer observing
end-of-stream at the frozen marker first.  In fact, on a stopped empty
queue (frozen marker at the write position), a push still stores its
element, and the very next pop returns that element rather than the null
sentinel — `pop` checks the marker only when the slot is empty.  Shown
for both variants. -/
theorem C9_push_after_stop_counterexample :
    ((FQ.X86.push 3 (FQ.stopQueue (FQ.X86.start Nat)) 7).bind fun s1 =>
      (FQ.X86.pop 3 s1).map Prod.fst) = some (some 7) ∧
    ((FQ.A64.push 3 (FQ.stopQueue (FQ.A64.start Nat)) 7).bind fun s1 =>
      (FQ.A64.pop 3 s1).map Prod.fst) = some (some 7) :=
  ⟨rfl, rfl⟩

/-- C9, amended: after `stopQueue()`, a push whose target slot is null
still stores its element and advances the write position past the frozen
exit marker — but that element IS returned by a subsequent pop once the
read position reaches its slot: either variant's `pop` takes any non-null
slot before ever consulting the marker, so end-of-stream is observed only
at an empty slot, not necessarily at the frozen marker. -/
theorem C9_push_after_stop_amended :
    (∀ (Val : Type) (RBS : Nat) (q : FQ.FastQueue Val) (x : Val),
      q.mRingBuffer (q.mWritePosition &&& RBS) = none →
      FQ.X86.push RBS (FQ.stopQueue q) x = some
        { FQ.stopQueue q with
          mRingBuffer := fun i =>
            if i = q.mWritePosition &&& RBS then some x else q.mRingBuffer i,
          mWritePosition := (q.mWritePosition + 1) % FQ.UINT64_MOD }) ∧
    (∀ (Val : Type) (RBS : Nat) (q : FQ.FastQueue Val) (x : Val),
      q.mRingBuffer (q.mWritePosition &&& RBS) = none →
      FQ.A64.push RBS (FQ.stopQueue q) x = some
        { FQ.stopQueue q with
          mRingBuffer := fun i =>
            if i = q.mWritePosition &&& RBS then some x else q.mRingBuffer i,
          mWritePosition := (q.mWritePosition + 1) % FQ.UINT64_MOD }) ∧
    (∀ (Val : Type) (RBS : Nat) (q : FQ.FastQueue Val) (v : Val),
      q.mRingBuffer (q.mReadPosition &&& RBS) = some v →
      (FQ.X86.pop RBS q).map Prod.fst = some (some v)) ∧
    (∀ (Val : Type) (RBS : Nat) (q : FQ.FastQueue Val) (v : Val),
      q.mRingBuffer (q.mReadPosition &&& RBS) = some v →
      (FQ.A64.pop RBS q).map Prod.fst = some (some v)) := by
  refine ⟨?_, ?_, ?_, ?_⟩
  · intro Val RBS q x h
    have h' : (FQ.stopQueue q).mRingBuffer
        ((FQ.stopQueue q).mWritePosition &&& RBS) = none := h
    unfold FQ.X86.push
    rw [h']
    rfl
  · intro Val RBS q x h
    have h' : (FQ.stopQueue q).mRingBuffer
        ((FQ.stopQueue q).mWritePosition &&& RBS) = none := h
    unfold FQ.A64.push
    rw [h']
    rfl
  · intro Val RBS q v h
    unfold FQ.X86.pop
    rw [h]
    rfl
  · intro Val RBS q v h
    unfold FQ.A64.pop
    rw [h]
    rfl

/-- Witness for C9's amended claim: a push after stopping the fresh queue
stores the element past the frozen marker (both variants), and a pop on a
stopped state whose slot holds 7 returns 7 (both variants). -/
theorem C9_push_after_stop_amended_witness :
    ((FQ.X86.push 3 (FQ.stopQueue (FQ.X86.start Nat)) 7).map
      (fun s => (s.mWritePosition, s.mExitThread, s.mRingBuffer 0)))
      = some (1, 0, some 7) ∧
    ((FQ.A64.push 3 (FQ.stopQueue (FQ.A64.start Nat)) 7).map
      (fun s => (s.mWritePosition, s.mExitThread, s.mRingBuffer 1)))
      = some (2, 1, some 7) ∧
    (FQ.X86.pop 3 (⟨0, 1, 0, true, fun i => if i = 0 then some 7 else none⟩ :
      FQ.FastQueue Nat)).map Prod.fst = some (some 7) ∧
    (FQ.A64.pop 3 (⟨0, 1, 0, true, fun i => if i = 0 then some 7 else none⟩ :
      FQ.FastQueue Nat)).map Prod.fst = some (some 7) := by
  refine ⟨?_, ?_, ?_, ?_⟩
  · rw [C9_push_after_stop_amended.1 Nat 3 (FQ.X86.start Nat) 7 rfl]
    rfl
  · rw [C9_push_after_stop_amended.2.1 Nat 3 (FQ.A64.start Nat) 7 rfl]
    rfl
  · exact C9_push_after_stop_amended.2.2.1 Nat 3 _ 7 rfl
  · exact C9_push_after_stop_amended.2.2.2 Nat 3 _ 7 rfl

/-- C10: when the sentinel-tracked `pop` (either variant) returns the
null end-of-stream sentinel, the state is left completely unchanged —
read position and every slot — and, with no intervening push, every
subsequent pop returns the null sentinel again immediately: pop at
end-of-stream is idempotent on the queue state. -/
theorem C10_pop_sentinel_idempotent (Val : Type) (RBS : Nat)
    (q s : FQ.FastQueue Val) :
    (FQ.X86.pop RBS q = some (none, s) →
      s = q ∧ ∀ k, FQ.popSeq (FQ.X86.pop RBS) k s
        = some (List.replicate k none, s)) ∧
    (FQ.A64.pop RBS q = some (none, s) →
      s = q ∧ ∀ k, FQ.popSeq (FQ.A64.pop RBS) k s
        = some (List.replicate k none, s)) := by
  constructor
  · intro h
    have hsq := FQ.pop_none_eq_x86 RBS q s h
    subst hsq
    exact ⟨rfl, FQ.popSeq_const (FQ.X86.pop RBS) s h⟩
  · intro h
    have hsq := FQ.pop_none_eq_a64 RBS q s h
    subst hsq
    exact ⟨rfl, FQ.popSeq_const (FQ.A64.pop RBS) s h⟩

/-- Witness for C10: the stopped fresh queue of either variant pops the
sentinel, and two further pops also yield the sentinel with the state
unchanged. -/
theorem C10_pop_sentinel_idempotent_witness :
    (FQ.stopQueue (FQ.X86.start Nat) = FQ.stopQueue (FQ.X86.start Nat) ∧
      FQ.popSeq (FQ.X86.pop 3) 2 (FQ.stopQueue (FQ.X86.start Nat))
        = some ([none, none], FQ.stopQueue (FQ.X86.start Nat))) ∧
    (FQ.stopQueue (FQ.A64.start Nat) = FQ.stopQueue (FQ.A64.start Nat) ∧
      FQ.popSeq (FQ.A64.pop 3) 2 (FQ.stopQueue (FQ.A64.start Nat))
        = some ([none, none], FQ.stopQueue (FQ.A64.start Nat))) :=
  ⟨⟨((C10_pop_sentinel_idempotent Nat 3 (FQ.stopQueue (FQ.X86.start Nat))
        (FQ.stopQueue (FQ.X86.start Nat))).1 rfl).1 ▸ rfl,
    ((C10_pop_sentinel_idempotent Nat 3 (FQ.stopQueue (FQ.X86.start Nat))
        (FQ.stopQueue (FQ.X86.start Nat))).1 rfl).2 2⟩,
   ⟨((C10_pop_sentinel_idempotent Nat 3 (FQ.stopQueue (FQ.A64.start Nat))
        (FQ.stopQueue (FQ.A64.start Nat))).2 rfl).1 ▸ rfl,
    ((C10_pop_sentinel_idempotent Nat 3 (FQ.stopQueue (FQ.A64.start Nat))
        (FQ.stopQueue (FQ.A64.start Nat))).2 rfl).2 2⟩⟩

/-- Witness for C6 at padding 8 (the padding of an 8-byte element type). -/
theorem C6_capacity_one_slack_slot_witness :
    (Dro.try_emplace (Dro.mkQueue Nat 1 8) 7).1 = true ∧
    Dro.emptyQ (Dro.try_emplace (Dro.mkQueue Nat 1 8) 7).2 = false ∧
    (Dro.try_emplace (Dro.try_emplace (Dro.mkQueue Nat 1 8) 7).2 8).1 = false ∧
    ((Dro.pop (Dro.try_emplace (Dro.try_emplace (Dro.mkQueue Nat 1 8) 7).2 8).2).map
      fun vq => (vq.1, (Dro.try_emplace vq.2 9).1)) = some (7, true) :=
  C6_capacity_one_slack_slot 8

/-- Witness for C8's amended claim: the two pushes agree at a concrete
state, and the two concrete pop facts hold. -/
theorem C8_push_shutdown_asymmetry_amended_witness :
    FQ.X86.push 3 (FQ.X86.start Nat) 5 = FQ.A64.push 3 (FQ.X86.start Nat) 5 ∧
    FQ.X86.pop 0 (⟨5, 9, 5, false, fun _ => none⟩ : FQ.FastQueue Nat) = none ∧
    FQ.A64.pop 0 (⟨5, 9, 5, false, fun _ => none⟩ : FQ.FastQueue Nat)
      = some (none, ⟨5, 9, 5, false, fun _ => none⟩) :=
  ⟨C8_push_shutdown_asymmetry_amended.1 Nat 3 (FQ.X86.start Nat) 5,
   C8_push_shutdown_asymmetry_amended.2.1,
   C8_push_shutdown_asymmetry_amended.2.2⟩
